import Mathlib

/-!
Verification of the HyperLogLog cardinality estimator implemented in
`src/hll.c` (a CPython extension module).  The C code is shallowly embedded:

* the `HyperLogLog` struct (fields `k`, `seed`, `size`, `registers`) becomes
  the structure `HLL`; the `char *registers` buffer becomes a `List ℕ`
  (all reachable register values are small non-negative ranks, ≤ 32, so they
  fit a C `char` without sign issues);
* `uint32_t` arithmetic is embedded as `ℕ` with explicit `% 2^32` where
  overflow can occur; comparisons such as `index < 0` on an unsigned value
  are embedded literally on `ℕ` (where they are decidably false, exactly as
  on `uint32_t`);
* Python exceptions (`ValueError`, `IndexError`) become the error type `Err`
  (`invalidArgument` for `ValueError`, `outOfRange` for `IndexError`);
* C `double` arithmetic in `HyperLogLog_cardinality` is embedded over `ℚ`
  with the C literals as exact rationals, and the transcendental `log` from
  `<math.h>` is a function parameter, so every theorem about the estimation
  code holds for an arbitrary interpretation of `log`;
* the Murmur3 hash lives in `murmur3.c`, outside this repository's source;
  insertion is therefore parameterised by an arbitrary deterministic hash
  function, which is all the idempotence property needs;
* undefined behaviour (out-of-bounds writes) has no C semantics; the
  embedding uses `List.set`, which leaves the list unchanged when the index
  is past the end, and `List.getD _ 0` for reads.  Theorems about the
  error-checking control flow do not depend on this choice.
-/

/-- Error kinds surfaced by the C code: `invalidArgument` models a Python
`ValueError` (`PyExc_ValueError`), `outOfRange` a Python `IndexError`
(`PyExc_IndexError`). -/
inductive Err where
  | invalidArgument
  | outOfRange
deriving DecidableEq, Repr

/-- The `HyperLogLog` struct of `src/hll.c` (lines 8–14): `k` is the power
(`size = 2^k`), `seed` the Murmur3 seed, `size` the number of registers and
`registers` the rank array. -/
structure HLL where
  k : ℕ
  seed : ℕ
  size : ℕ
  registers : List ℕ
deriving DecidableEq, Repr

/-- `HyperLogLog_init` (lines 36–56): rejects `k < 2` or `k > 16` with a
`ValueError`, otherwise sets `size = 1 << k` and zero-fills the register
buffer (`memset(self->registers, 0, self->size)`).  The C field `k` is a
`short int`, so the argument is taken in `ℤ`. -/
def hllInit (k : ℤ) (seed : ℕ) : Except Err HLL :=
  if k < 2 ∨ 16 < k then
    .error .invalidArgument
  else
    .ok { k := k.toNat, seed := seed, size := 2 ^ k.toNat,
          registers := List.replicate (2 ^ k.toNat) 0 }

/-- Result of `HyperLogLog_set_register` (lines 228–266), one constructor
per C branch, in the order the C code tests them. -/
inductive SetRegResult where
  | errIndexNegative
  | errIndexTooLarge
  | errRankTooLarge
  | errRankNegative
  | ok (registers : List ℕ)
deriving DecidableEq, Repr

/-- The Python exception kind each `SetRegResult` branch raises
(`none` when no exception is raised). -/
def SetRegResult.errKind : SetRegResult → Option Err
  | .errIndexNegative => some .invalidArgument
  | .errIndexTooLarge => some .outOfRange
  | .errRankTooLarge => some .invalidArgument
  | .errRankNegative => some .invalidArgument
  | .ok _ => none

/-- Whether a `SetRegResult` comes from one of the two negative-argument
branches of `HyperLogLog_set_register` (lines 237 and 255). -/
def SetRegResult.isNegativeBranch : SetRegResult → Bool
  | .errIndexNegative => true
  | .errRankNegative => true
  | _ => false

/-- `HyperLogLog_set_register` (lines 228–266).  `index` and `rank` are
`uint32_t` in the C code, embedded as `ℕ`; the C comparisons `index < 0`
and `rank < 0` are embedded literally (on an unsigned value they are always
false, exactly as on `ℕ`).  Note the bounds check is `index > self->size`
(line 243), strict, so `index == size` passes the checks and the C code
writes `registers[size]`, one past the end of the buffer; the embedding's
`List.set` leaves the list unchanged there (the write has no defined C
semantics), but the control flow — no error raised — is faithful. -/
def setRegister (st : HLL) (index rank : ℕ) : SetRegResult :=
  if index < 0 then
    .errIndexNegative
  else if index > st.size then
    .errIndexTooLarge
  else if rank > 32 then
    .errRankTooLarge
  else if rank < 0 then
    .errRankNegative
  else
    .ok (st.registers.set index rank)

/-- `HyperLogLog_merge` (lines 178–211).  The C code asks the peer object
for its `size()` and a `registers()` snapshot, raises a `ValueError` if the
sizes differ, and otherwise raises each own register to the peer's where
the peer's is larger (`if (self->registers[i] < hllRegisters[i])
self->registers[i] = hllRegisters[i];` for `i < self->size`).  The result
pairs the post-state of `self` and of the peer (which the merge never
writes) with the raised error, if any; on error `self` is returned
unchanged, as in the C code. -/
def hllMerge (self peer : HLL) : (HLL × HLL) × Option Err :=
  if peer.size ≠ self.size then
    ((self, peer), some .invalidArgument)
  else
    (({ self with
        registers := (List.range self.size).map (fun i =>
          let a := self.registers.getD i 0
          let b := peer.registers.getD i 0
          if a < b then b else a) }, peer), none)

/-- The population count `ones` (lines 433–440).  All five C statements are
reproduced; the subtraction in the first statement never underflows
(`(x >> 1) & 0x55555555 ≤ x >> 1 ≤ x`) and no intermediate value reaches
`2^32` for `x < 2^32`, so plain `ℕ` arithmetic coincides with the C
`uint32_t` arithmetic. -/
def ones (x : ℕ) : ℕ :=
  let x := x - ((x >>> 1) &&& 0x55555555)
  let x := ((x >>> 2) &&& 0x33333333) + (x &&& 0x33333333)
  let x := ((x >>> 4) + x) &&& 0x0F0F0F0F
  let x := x + (x >>> 8)
  let x := x + (x >>> 16)
  x &&& 0x0000003F

/-- The bit-smearing steps of `leadingZeroCount` (lines 422–426): after the
five or-shifts every bit position below the most significant set bit of `x`
is set.  All values stay below `2^32` when `x < 2^32`, so `ℕ` coincides
with `uint32_t`. -/
def smear (x : ℕ) : ℕ :=
  let x := x ||| (x >>> 1)
  let x := x ||| (x >>> 2)
  let x := x ||| (x >>> 4)
  let x := x ||| (x >>> 8)
  let x := x ||| (x >>> 16)
  x

/-- `leadingZeroCount` (lines 421–428): smear the highest set bit downwards,
then return `32 - ones x`. -/
def leadingZeroCount (x : ℕ) : ℕ :=
  32 - ones (smear x)

/-- The index computation of `HyperLogLog_add` (line 84):
`index = (*hash >> (32 - self->k)) + 1`.  For a 32-bit `h` and `k ≤ 32` the
shift cannot overflow, so no `% 2^32` is needed. -/
def hllIndex (k h : ℕ) : ℕ :=
  (h >>> (32 - k)) + 1

/-- The rank computation of `HyperLogLog_add` (line 87):
`rank = leadingZeroCount((*hash << self->k) >> self->k) - self->k + 1`.
The left shift is `uint32_t`, hence the `% 2^32`; the outer subtraction
never wraps because the shifted value has its top `k` bits clear, so its
leading-zero count is at least `k`. -/
def hllRank (k h : ℕ) : ℕ :=
  leadingZeroCount (((h <<< k) % 2 ^ 32) >>> k) - k + 1

/-- Spec-side definition, for comparison with the code's `hllRank`
(spec §4.2): the number of leading zero bits of `v` viewed as a `w`-bit
word, i.e. `w` minus the bit-length of `v` (for `v = 0` this is `w`,
matching the spec's all-zero-remainder case). -/
def specLeadingZeros (w v : ℕ) : ℕ :=
  w - Nat.size v

/-- The body of `HyperLogLog_add` (lines 68–94) after the Murmur3 hash
value `hash` has been computed: derive `(index, rank)` and apply the
monotone-max write `if (rank > self->registers[index])
self->registers[index] = rank;`. -/
def hllAdd (st : HLL) (hash : ℕ) : HLL :=
  let index := hllIndex st.k hash
  let rank := hllRank st.k hash
  if st.registers.getD index 0 < rank then
    { st with registers := st.registers.set index rank }
  else
    st

/-- `HyperLogLog_add` on raw input bytes.  The hash itself,
`MurmurHash3_x86_32` (line 81), lives in `murmur3.c`, which is not part of
this repository's source; the insertion is therefore parameterised by an
arbitrary function `murmur` of the data and the seed, truncated to 32 bits
— every theorem below holds for any such deterministic hash. -/
def hllAddBytes (murmur : List ℕ → ℕ → ℕ) (st : HLL) (data : List ℕ) : HLL :=
  hllAdd st (murmur data st.seed % 2 ^ 32)

/-- The `alpha` switch of `HyperLogLog_cardinality` (lines 105–119), with
the C `double` literals as exact rationals. -/
def alphaFor (size : ℕ) : ℚ :=
  if size = 16 then 673 / 1000
  else if size = 32 then 697 / 1000
  else if size = 64 then 709 / 1000
  else (7213 / 10000) / (1 + (1079 / 1000) / (size : ℚ))

/-- The harmonic-sum loop of `HyperLogLog_cardinality` (lines 121–127):
`sum += 1.0 / pow(2, rank)` over all registers. -/
def registersSum (regs : List ℕ) : ℚ :=
  (regs.map (fun r => 1 / 2 ^ r)).sum

/-- Line 136 of the zero-register loop reads `if (self->registers == 0)`:
it compares the register *pointer* (a `char *`) against NULL, not any
register value.  The pointer was produced by `malloc` in
`HyperLogLog_init` (line 53) and is never null on the paths that reach
this test, so the comparison is always false. -/
def registersNull (_st : HLL) : Bool := false

/-- The zero-register counting loop of `HyperLogLog_cardinality`
(lines 132–138), with the line-136 condition exactly as written in the
source (see `registersNull`). -/
def zerosCount (st : HLL) : ℕ :=
  (List.range st.size).foldl (fun z _ => if registersNull st then z + 1 else z) 0

/-- `raw_estimate` (line 129): `alpha * (1/sum) * size * size`. -/
def rawEstimate (st : HLL) : ℚ :=
  alphaFor st.size * (1 / registersSum st.registers) * st.size * st.size

/-- `HyperLogLog_cardinality` (lines 99–153) over exact rationals, with the
C library `log` as a parameter.  Structure, in source order: `estimate`
starts at 0; the small-range block runs when
`raw_estimate <= 2.5 * size` and uses the (broken, see `registersNull`)
`zerosCount`; note that line 141 computes `log(self->size/zeros)` with
*integer* division, reproduced here as `ℕ` division; then line 146
replaces any small `estimate` by `raw_estimate`, and line 149 applies the
large-range correction. -/
def cardinality (log : ℚ → ℚ) (st : HLL) : ℚ :=
  let two32 : ℚ := 4294967296
  let raw := rawEstimate st
  let estimate : ℚ := 0
  let estimate :=
    if raw ≤ 5 / 2 * (st.size : ℚ) then
      if zerosCount st ≠ 0 then
        (st.size : ℚ) * log ((st.size / zerosCount st : ℕ) : ℚ)
      else raw
    else estimate
  let estimate := if estimate ≤ 1 / 30 * two32 then raw else estimate
  let estimate := if 1 / 30 * two32 < estimate then -two32 * log (1 - raw / two32) else estimate
  estimate

/-- The estimator produced by `hllInit 4 314`: sixteen zero registers. -/
def allZero16 : HLL :=
  { k := 4, seed := 314, size := 16, registers := List.replicate 16 0 }

/- ------------------------------------------------------------------ -/
/- Helper lemmas                                                      -/
/- ------------------------------------------------------------------ -/

theorem getD_map_range (n : ℕ) (f : ℕ → ℕ) (i : ℕ) (hi : i < n) :
    ((List.range n).map f).getD i 0 = f i := by
  rw [List.getD_eq_getElem?_getD, List.getElem?_map, List.getElem?_range hi]
  rfl

theorem hll_eta (st : HLL) (l : List ℕ) (h : l = st.registers) :
    { st with registers := l } = st := by
  cases st
  simpa using h

theorem foldl_const {α β : Type} (l : List α) (init : β) :
    l.foldl (fun z _ => z) init = init := by
  induction l generalizing init with
  | nil => rfl
  | cons a t ih => exact ih init

theorem zerosCount_eq_zero (st : HLL) : zerosCount st = 0 := by
  unfold zerosCount
  simp only [registersNull, Bool.false_eq_true, if_false]
  exact foldl_const _ 0

theorem bitNear_step (m : ℕ) {x y : ℕ}
    (hy : ∀ i, y.testBit i = true ↔ ∃ j < m, x.testBit (i + j) = true) :
    ∀ i, (y ||| (y >>> m)).testBit i = true ↔ ∃ j < 2 * m, x.testBit (i + j) = true := by
  intro i
  rw [Nat.testBit_or, Bool.or_eq_true, Nat.testBit_shiftRight, hy, hy]
  constructor
  · rintro (⟨j, hj, hb⟩ | ⟨j, hj, hb⟩)
    · exact ⟨j, by omega, hb⟩
    · refine ⟨m + j, by omega, ?_⟩
      have he : i + (m + j) = m + i + j := by omega
      rw [he]
      exact hb
  · rintro ⟨j, hj, hb⟩
    by_cases hjm : j < m
    · exact Or.inl ⟨j, hjm, hb⟩
    · refine Or.inr ⟨j - m, by omega, ?_⟩
      have he : m + i + (j - m) = i + j := by omega
      rw [he]
      exact hb

theorem smear_testBit (x i : ℕ) :
    (smear x).testBit i = true ↔ ∃ j < 32, x.testBit (i + j) = true := by
  have h0 : ∀ i, x.testBit i = true ↔ ∃ j < 1, x.testBit (i + j) = true := by
    intro i
    constructor
    · intro hb
      exact ⟨0, Nat.zero_lt_one, by simpa using hb⟩
    · rintro ⟨j, hj, hb⟩
      have hj0 : j = 0 := by omega
      subst hj0
      simpa using hb
  have h1 := bitNear_step 1 h0
  simp only [show (2 * 1 : ℕ) = 2 from rfl] at h1
  have h2 := bitNear_step 2 h1
  simp only [show (2 * 2 : ℕ) = 4 from rfl] at h2
  have h3 := bitNear_step 4 h2
  simp only [show (2 * 4 : ℕ) = 8 from rfl] at h3
  have h4 := bitNear_step 8 h3
  simp only [show (2 * 8 : ℕ) = 16 from rfl] at h4
  have h5 := bitNear_step 16 h4
  simp only [show (2 * 16 : ℕ) = 32 from rfl] at h5
  simpa only [smear] using h5 i

theorem testBit_true_lt_size {x i : ℕ} (h : x.testBit i = true) : i < x.size := by
  by_contra hle
  push_neg at hle
  have hlt : x < 2 ^ i :=
    lt_of_lt_of_le (Nat.lt_size_self x) (Nat.pow_le_pow_right (by omega) hle)
  rw [Nat.testBit_lt_two_pow hlt] at h
  exact Bool.false_ne_true h

theorem testBit_size_sub_one {x : ℕ} (hx : x ≠ 0) : x.testBit (x.size - 1) = true := by
  have hpos : 0 < x.size := by
    rcases Nat.eq_zero_or_pos x.size with h | h
    · exact absurd (Nat.size_eq_zero.mp h) hx
    · exact h
  have hle : 2 ^ (x.size - 1) ≤ x := Nat.lt_size.mp (by omega)
  have hlt : x < 2 ^ x.size := Nat.lt_size_self x
  have hdiv : x / 2 ^ (x.size - 1) = 1 := by
    refine Nat.div_eq_of_lt_le (by simpa using hle) ?_
    have h2 : (1 + 1) * 2 ^ (x.size - 1) = 2 ^ x.size := by
      rw [← pow_succ']
      congr 1
      omega
    omega
  rw [Nat.testBit_to_div_mod, hdiv]
  rfl

theorem smear_eq (x : ℕ) (hx : x < 2 ^ 32) : smear x = 2 ^ x.size - 1 := by
  apply Nat.eq_of_testBit_eq
  intro i
  rw [Nat.testBit_two_pow_sub_one]
  by_cases hi : i < x.size
  · have hxne : x ≠ 0 := by
      intro h0
      subst h0
      rw [Nat.size_zero] at hi
      omega
    have hsle : x.size ≤ 32 := Nat.size_le.mpr hx
    have hb : (smear x).testBit i = true := by
      rw [smear_testBit]
      refine ⟨x.size - 1 - i, by omega, ?_⟩
      have he : i + (x.size - 1 - i) = x.size - 1 := by omega
      rw [he]
      exact testBit_size_sub_one hxne
    simp [hb, hi]
  · have hnone : ¬ ∃ j < 32, x.testBit (i + j) = true := by
      rintro ⟨j, hj, hb⟩
      exact hi (by have := testBit_true_lt_size hb; omega)
    have hb : (smear x).testBit i = false := by
      cases hcase : (smear x).testBit i
      · rfl
      · exact absurd ((smear_testBit x i).mp hcase) hnone
    simp [hb, hi]

theorem ones_two_pow_sub_one : ∀ n < 33, ones (2 ^ n - 1) = n := by decide

theorem leadingZeroCount_eq (x : ℕ) (hx : x < 2 ^ 32) :
    leadingZeroCount x = 32 - x.size := by
  have hsle : x.size ≤ 32 := Nat.size_le.mpr hx
  unfold leadingZeroCount
  rw [smear_eq x hx, ones_two_pow_sub_one x.size (by omega)]

theorem shiftl_shiftr (k hsh : ℕ) (hk : k ≤ 32) :
    ((hsh <<< k) % 2 ^ 32) >>> k = hsh % 2 ^ (32 - k) := by
  rw [Nat.shiftLeft_eq, Nat.shiftRight_eq_div_pow]
  have h32 : (2 : ℕ) ^ 32 = 2 ^ (32 - k) * 2 ^ k := by
    rw [← pow_add]
    congr 1
    omega
  rw [h32, Nat.mul_mod_mul_right, Nat.mul_div_cancel _ (by positivity)]

theorem hllAdd_def (st : HLL) (h : ℕ) :
    hllAdd st h =
      if st.registers.getD (hllIndex st.k h) 0 < hllRank st.k h then
        { st with registers := st.registers.set (hllIndex st.k h) (hllRank st.k h) }
      else st := rfl

theorem hllAdd_seed (st : HLL) (h : ℕ) : (hllAdd st h).seed = st.seed := by
  rw [hllAdd_def]
  split_ifs <;> rfl

theorem hllAdd_idem (st : HLL) (h : ℕ) : hllAdd (hllAdd st h) h = hllAdd st h := by
  by_cases hc : st.registers.getD (hllIndex st.k h) 0 < hllRank st.k h
  · by_cases hlen : hllIndex st.k h < st.registers.length
    · have heq : hllAdd st h =
          { st with registers := st.registers.set (hllIndex st.k h) (hllRank st.k h) } := by
        rw [hllAdd_def, if_pos hc]
      rw [heq, hllAdd_def]
      have hget : ((st.registers.set (hllIndex st.k h) (hllRank st.k h)).getD
          (hllIndex st.k h) 0) = hllRank st.k h := by
        rw [List.getD_eq_getElem?_getD, List.getElem?_set_self hlen]
        rfl
      dsimp only
      rw [if_neg (by rw [hget]; omega)]
    · have hnoop : hllAdd st h = st := by
        rw [hllAdd_def, if_pos hc, List.set_eq_of_length_le (by omega)]
      rw [hnoop]
      exact hnoop
  · have hnoop : hllAdd st h = st := by
      rw [hllAdd_def, if_neg hc]
    rw [hnoop]
    exact hnoop

/- ------------------------------------------------------------------ -/
/- Claim theorems                                                     -/
/- ------------------------------------------------------------------ -/

/-- C7: construction fails with `InvalidArgument` exactly when `k < 2` or
`k > 16`; for every `k ∈ [2, 16]` it succeeds with `size = 2^k` and all
`2^k` registers zero. -/
theorem init_correct (k : ℤ) (seed : ℕ) :
    ((k < 2 ∨ 16 < k) → hllInit k seed = .error .invalidArgument) ∧
    (2 ≤ k → k ≤ 16 →
      ∃ st, hllInit k seed = .ok st ∧
        st.size = 2 ^ k.toNat ∧
        st.registers = List.replicate (2 ^ k.toNat) 0 ∧
        st.registers.length = st.size ∧
        ∀ i < st.size, st.registers.getD i 0 = 0) := by
  constructor
  · intro h
    simp [hllInit, h]
  · intro h2 h16
    have hne : ¬(k < 2 ∨ 16 < k) := by omega
    refine ⟨{ k := k.toNat, seed := seed, size := 2 ^ k.toNat,
              registers := List.replicate (2 ^ k.toNat) 0 }, ?_, rfl, rfl, by simp, ?_⟩
    · simp [hllInit, hne]
    · intro i hi
      simp only [List.getD_eq_getElem?_getD, List.getElem?_replicate]
      simp only at hi
      simp [hi]

theorem init_correct_witness :
    hllInit 17 314 = .error .invalidArgument ∧
    ∃ st, hllInit 4 314 = .ok st ∧
      st.size = 16 := by
  refine ⟨(init_correct 17 314).1 (by decide), ?_⟩
  obtain ⟨st, hst, hsize, -⟩ := (init_correct 4 314).2 (by decide) (by decide)
  exact ⟨st, hst, by rw [hsize]; decide⟩

/-- C10: the two negative-argument branches of `set_register`
(`index < 0` at line 237 and `rank < 0` at line 255) are unreachable for
every call: `index` and `rank` are unsigned, so neither comparison ever
holds and neither of the two error paths can be taken. -/
theorem setRegister_negative_branches_dead (st : HLL) (index rank : ℕ) :
    (setRegister st index rank).isNegativeBranch = false := by
  unfold setRegister
  split_ifs <;> simp_all [SetRegResult.isNegativeBranch]

/-- C5: the claim asserts `set_register` fails with `OutOfRange` for every
`index ≥ size`, in particular `index == size`.  The code's check is the
strict `index > self->size` (line 243), so at `index == size` no error is
raised at all (and the C write lands one past the buffer): on a
`size = 4` estimator, `set_register(4, 1)` returns without an exception.
The other behaviours the claim lists do hold: `index = 5 > size` raises
`OutOfRange`, `rank = 33` raises `InvalidArgument`, and a valid call
updates exactly the addressed register. -/
theorem setRegister_index_eq_size_not_rejected :
    (setRegister { k := 2, seed := 314, size := 4,
                   registers := [7, 0, 0, 0] } 4 1).errKind = none ∧
    (setRegister { k := 2, seed := 314, size := 4,
                   registers := [7, 0, 0, 0] } 5 1).errKind = some .outOfRange ∧
    (setRegister { k := 2, seed := 314, size := 4,
                   registers := [7, 0, 0, 0] } 1 33).errKind = some .invalidArgument ∧
    setRegister { k := 2, seed := 314, size := 4,
                  registers := [7, 0, 0, 0] } 1 9 =
      .ok [7, 9, 0, 0] := by
  decide

/-- C4: for peers of equal size, merge raises no error, leaves the peer
untouched, and updates self's registers in place to the element-wise
maximum `max (self.registers[i]) (peer.registers[i])` at every index
`i < size`; for a peer of different size it fails with `InvalidArgument`
and self's registers are unchanged. -/
theorem merge_correct (self peer : HLL) :
    (peer.size = self.size →
      (hllMerge self peer).2 = none ∧
      (hllMerge self peer).1.2 = peer ∧
      (hllMerge self peer).1.1.k = self.k ∧
      (hllMerge self peer).1.1.seed = self.seed ∧
      (hllMerge self peer).1.1.size = self.size ∧
      ∀ i < self.size,
        (hllMerge self peer).1.1.registers.getD i 0 =
          max (self.registers.getD i 0) (peer.registers.getD i 0)) ∧
    (peer.size ≠ self.size →
      hllMerge self peer = ((self, peer), some .invalidArgument)) := by
  constructor
  · intro hsize
    rw [hllMerge, if_neg (by omega)]
    refine ⟨rfl, rfl, rfl, rfl, rfl, ?_⟩
    intro i hi
    simp only
    rw [getD_map_range _ _ _ hi]
    simp only [max_def]
    split_ifs <;> omega
  · intro hsize
    rw [hllMerge, if_pos hsize]

theorem merge_correct_witness :
    ((hllMerge { k := 2, seed := 314, size := 4, registers := [1, 5, 0, 2] }
               { k := 2, seed := 314, size := 4, registers := [3, 2, 2, 0] }).1.1.registers.getD 1 0 =
        max ([1, 5, 0, 2].getD 1 0) ([3, 2, 2, 0].getD 1 0)) ∧
    hllMerge { k := 2, seed := 314, size := 4, registers := [1, 5, 0, 2] }
             { k := 3, seed := 314, size := 8, registers := [0, 0, 0, 0, 0, 0, 0, 0] } =
      (({ k := 2, seed := 314, size := 4, registers := [1, 5, 0, 2] },
        { k := 3, seed := 314, size := 8, registers := [0, 0, 0, 0, 0, 0, 0, 0] }),
       some .invalidArgument) := by
  constructor
  · exact ((merge_correct
      { k := 2, seed := 314, size := 4, registers := [1, 5, 0, 2] }
      { k := 2, seed := 314, size := 4, registers := [3, 2, 2, 0] }).1 rfl).2.2.2.2.2 1 (by decide)
  · exact (merge_correct
      { k := 2, seed := 314, size := 4, registers := [1, 5, 0, 2] }
      { k := 3, seed := 314, size := 8, registers := [0, 0, 0, 0, 0, 0, 0, 0] }).2 (by decide)

/-- C9: over equal-size states, merge is idempotent and commutative on the
register array: merging the same peer into self twice leaves the same
state as merging it once; the merged register array is the element-wise
maximum of the two original arrays; and merging in the other direction
yields the same register array. -/
theorem merge_comm_idem (a b : HLL) (hsize : b.size = a.size) :
    (hllMerge (hllMerge a b).1.1 b).1.1 = (hllMerge a b).1.1 ∧
    (hllMerge a b).1.1.registers =
      (List.range a.size).map (fun i =>
        max (a.registers.getD i 0) (b.registers.getD i 0)) ∧
    (hllMerge a b).1.1.registers = (hllMerge b a).1.1.registers := by
  have hmax : ∀ x y : ℕ, (if x < y then y else x) = max x y := by
    intro x y
    simp only [max_def]
    split_ifs <;> omega
  have hab : (hllMerge a b).1.1 =
      { a with registers := (List.range a.size).map (fun i =>
          max (a.registers.getD i 0) (b.registers.getD i 0)) } := by
    rw [hllMerge, if_neg (by omega)]
    simp only [hmax]
  refine ⟨?_, by rw [hab], ?_⟩
  · rw [hllMerge, if_neg (by rw [hab]; simpa using (by omega : b.size = a.size))]
    simp only
    refine hll_eta _ _ ?_
    rw [hab]
    simp only
    refine List.map_congr_left ?_
    intro i hi
    rw [List.mem_range] at hi
    rw [getD_map_range _ _ _ hi, hmax]
    omega
  · rw [hab, hllMerge, if_neg (by omega)]
    simp only [hmax, hsize]
    refine List.map_congr_left ?_
    intro i hi
    omega

theorem merge_comm_idem_witness :
    (hllMerge (hllMerge { k := 2, seed := 314, size := 4, registers := [1, 5, 0, 2] }
                        { k := 2, seed := 314, size := 4, registers := [3, 2, 2, 0] }).1.1
              { k := 2, seed := 314, size := 4, registers := [3, 2, 2, 0] }).1.1 =
      (hllMerge { k := 2, seed := 314, size := 4, registers := [1, 5, 0, 2] }
                { k := 2, seed := 314, size := 4, registers := [3, 2, 2, 0] }).1.1 ∧
    (hllMerge { k := 2, seed := 314, size := 4, registers := [1, 5, 0, 2] }
              { k := 2, seed := 314, size := 4, registers := [3, 2, 2, 0] }).1.1.registers =
      (hllMerge { k := 2, seed := 314, size := 4, registers := [3, 2, 2, 0] }
                { k := 2, seed := 314, size := 4, registers := [1, 5, 0, 2] }).1.1.registers := by
  have h := merge_comm_idem
    { k := 2, seed := 314, size := 4, registers := [1, 5, 0, 2] }
    { k := 2, seed := 314, size := 4, registers := [3, 2, 2, 0] } rfl
  exact ⟨h.1, h.2.2⟩

/-- C1: the claim asserts the register index used by `add` is the top `k`
bits of the 32-bit hash, a zero-based value in `[0, 2^k - 1]`.  The code
(line 84) computes `(h >> (32 - k)) + 1`, one more than the top `k` bits:
for `k = 2` the hash `0xFFFFFFFF` (top bits `3`) yields index `4 = 2^k`,
outside `[0, 2^k - 1]` (the C write then lands one past the register
buffer), and the hash `0` (top bits `0`) yields index `1`, not `0`. -/
theorem index_off_by_one :
    hllIndex 2 4294967295 = 4 ∧
    2 ^ 2 ≤ hllIndex 2 4294967295 ∧
    hllIndex 2 0 = 1 := by
  decide

/-- C8: for every 32-bit hash `h` and valid `k`, the rank computed by `add`
equals the number of leading zero bits of the `(32 - k)`-bit low-order
remainder of `h`, plus 1 (see `specLeadingZeros`); when the remainder is
all zero the rank is `(32 - k) + 1`. -/
theorem rank_spec (k h : ℕ) (hk2 : 2 ≤ k) (hk16 : k ≤ 16) (_hh : h < 2 ^ 32) :
    hllRank k h = specLeadingZeros (32 - k) (h % 2 ^ (32 - k)) + 1 ∧
    (h % 2 ^ (32 - k) = 0 → hllRank k h = (32 - k) + 1) := by
  have hsh := shiftl_shiftr k h (by omega)
  have hv : h % 2 ^ (32 - k) < 2 ^ (32 - k) := Nat.mod_lt _ (by positivity)
  have hv32 : h % 2 ^ (32 - k) < 2 ^ 32 :=
    lt_of_lt_of_le hv (Nat.pow_le_pow_right (by omega) (by omega))
  have hsize : (h % 2 ^ (32 - k)).size ≤ 32 - k := Nat.size_le.mpr hv
  constructor
  · unfold hllRank specLeadingZeros
    rw [hsh, leadingZeroCount_eq _ hv32]
    omega
  · intro h0
    unfold hllRank
    rw [hsh, h0, leadingZeroCount_eq 0 (by norm_num), Nat.size_zero]

theorem rank_spec_witness :
    hllRank 4 0 = specLeadingZeros (32 - 4) (0 % 2 ^ (32 - 4)) + 1 :=
  (rank_spec 4 0 (by decide) (by decide) (by decide)).1

/-- C6: inserting the same byte sequence `N ≥ 1` times yields exactly the
state obtained by inserting it once: the monotone-max write of `add` is
idempotent, for any deterministic hash function. -/
theorem add_idempotent (murmur : List ℕ → ℕ → ℕ) (st : HLL) (d : List ℕ)
    (N : ℕ) (hN : 1 ≤ N) :
    (fun s => hllAddBytes murmur s d)^[N] st = hllAddBytes murmur st d := by
  induction N with
  | zero => omega
  | succ n ih =>
    rcases Nat.eq_zero_or_pos n with h0 | hpos
    · subst h0
      simp
    · rw [Function.iterate_succ_apply', ih hpos]
      show hllAddBytes murmur (hllAddBytes murmur st d) d = hllAddBytes murmur st d
      unfold hllAddBytes
      rw [hllAdd_seed]
      exact hllAdd_idem st _

theorem add_idempotent_witness :
    (fun s => hllAddBytes (fun _ _ => 7) s [97])^[3] allZero16 =
      hllAddBytes (fun _ _ => 7) allZero16 [97] :=
  add_idempotent (fun _ _ => 7) allZero16 [97] 3 (by decide)

/-- C2: the claim asserts that whenever `raw_estimate ≤ 2.5 * size`, the
counted `zeros` equals the number of registers whose value is 0, and the
linear-counting branch is taken when at least one register is 0.  On the
freshly-built `k = 4` estimator all 16 registers are 0 and
`raw_estimate = 10.768 ≤ 40`, yet the code's count is 0 — line 136
compares the register pointer, not the register values (see
`registersNull`) — so the linear-counting branch is not taken. -/
theorem zeros_count_pointer_bug :
    hllInit 4 314 = .ok allZero16 ∧
    rawEstimate allZero16 ≤ 5 / 2 * (allZero16.size : ℚ) ∧
    zerosCount allZero16 = 0 ∧
    List.count 0 allZero16.registers = 16 := by
  refine ⟨rfl, ?_, zerosCount_eq_zero _, by decide⟩
  have hsum : registersSum allZero16.registers = 16 := by
    norm_num [registersSum, allZero16, List.map_replicate, List.sum_replicate]
  rw [rawEstimate, hsum]
  norm_num [allZero16, alphaFor]

/-- C3: the claim asserts `cardinality()` returns 0 when all registers are
0.  On the all-zero `k = 4` estimator the code instead returns the raw
estimate `alpha * size = 0.673 * 16 = 10.768`: the broken zero count (see
`registersNull`) forces the `zeros == 0` fallback, and line 146 would
overwrite a small linear-counting value with the raw estimate anyway.
This holds for every interpretation of the C library `log`. -/
theorem cardinality_all_zero_nonzero (log : ℚ → ℚ) :
    cardinality log allZero16 = 1346 / 125 ∧
    0 < (1346 / 125 : ℚ) := by
  have hsum : registersSum allZero16.registers = 16 := by
    norm_num [registersSum, allZero16, List.map_replicate, List.sum_replicate]
  have hraw : rawEstimate allZero16 = 1346 / 125 := by
    rw [rawEstimate, hsum]
    norm_num [allZero16, alphaFor]
  constructor
  · rw [cardinality, hraw, zerosCount_eq_zero]
    norm_num [allZero16]
  · norm_num
